import Mathlib

/-!
Shallow embedding of `src/aesthetic_charge.py` (function
`compute_aesthetic_charge`).

Modelling choices:
* An 8-bit BGR image of shape h x w is a function `Fin h → Fin w → ℕ × ℕ × ℕ`
  holding the (B, G, R) byte values of each pixel, matching what `cv2.imread`
  produces.
* Floating-point arithmetic is modelled by exact real arithmetic over `ℝ`,
  keeping every written constant of the source exactly as written, with one
  targeted exception: the histogram pipeline runs in numpy float32
  (`cv2.calcHist` returns float32, and `hist / hist.sum()` and
  `hist + 1e-9` stay float32), and there the binary32 rounding of
  `hist + 1e-9` is semantically decisive — `1.0f + 1e-9` rounds back to
  `1.0f`, so the occupied bin of a uniform image contributes
  `log2(1.0) = 0` and the entropy scalar of a uniform image is exactly 0.
  That one addition is therefore modelled through the binary32
  round-to-nearest function `rnd32`.  Everywhere else rounding only
  perturbs magnitudes without changing any property stated here.
* `cv2.imread` is modelled as a lookup of the path in a map from paths to
  optionally decoded images; `cv2.imread` returning `None` (unreadable image)
  makes the subsequent `cv2.cvtColor` raise a `cv2.error`.
* Python failure modes are modelled with `Except`: the pipeline either raises
  (an `Except.error` naming the kind of exception) or returns the field and
  the RGB image.
-/

/-- An 8-bit three-channel image: each pixel holds its (B, G, R) bytes. -/
abbrev Img8 (h w : ℕ) := Fin h → Fin w → ℕ × ℕ × ℕ

/-- A single floating-point channel / scalar field over the image plane. -/
abbrev Channel (h w : ℕ) := Fin h → Fin w → ℝ

/-- Models OpenCV `BORDER_REFLECT_101` index extension, the default border
mode of both `cv2.filter2D` and `cv2.Laplacian`: the pattern
`gfedcb|abcdefgh|gfedcba` (the border pixel itself is not duplicated).
OpenCV returns index 0 whenever the axis has length 1. -/
def reflect101 (n : ℕ) (i : ℤ) : ℕ :=
  if n ≤ 1 then 0
  else
    let m := (i % (2 * ((n : ℤ) - 1))).toNat
    if m < n then m else 2 * (n - 1) - m

theorem reflect101_lt {n : ℕ} (hn : 0 < n) (i : ℤ) : reflect101 n i < n := by
  unfold reflect101
  by_cases h1 : n ≤ 1
  · simp only [h1, if_true]; omega
  · simp only [h1, if_false]
    have h2 : (0 : ℤ) < 2 * ((n : ℤ) - 1) := by
      have : 2 ≤ n := by omega
      have : (2 : ℤ) ≤ (n : ℤ) := by exact_mod_cast this
      omega
    have hlow : 0 ≤ i % (2 * ((n : ℤ) - 1)) := Int.emod_nonneg i (by omega)
    have hhigh : i % (2 * ((n : ℤ) - 1)) < 2 * ((n : ℤ) - 1) := Int.emod_lt_of_pos i h2
    by_cases h3 : (i % (2 * ((n : ℤ) - 1))).toNat < n
    · simp [h3]
    · simp only [h3, if_false]
      omega

/-- Reads a channel at arbitrary integer coordinates, extending across the
image border with reflect-101.  Every filter of the pipeline samples pixels
through this one function, so border handling is shared by construction. -/
def sample {h w : ℕ} (ch : Channel h w) (hh : 0 < h) (hw : 0 < w) (y x : ℤ) : ℝ :=
  ch ⟨reflect101 h y, reflect101_lt hh y⟩ ⟨reflect101 w x, reflect101_lt hw x⟩

/-- Models `cv2.filter2D`: correlation of a channel with a k x k kernel whose
anchor is the kernel centre, with the default reflect-101 border. -/
def filter2D {h w : ℕ} (ch : Channel h w) (k : ℕ) (ker : ℕ → ℕ → ℝ) : Channel h w :=
  fun y x =>
    ∑ a ∈ Finset.range k, ∑ b ∈ Finset.range k,
      ker a b * sample ch y.pos x.pos
        ((y : ℤ) + (a : ℤ) - ((k / 2 : ℕ) : ℤ)) ((x : ℤ) + (b : ℤ) - ((k / 2 : ℕ) : ℤ))

/-- Local mean: `cv2.filter2D` with the normalized box kernel
`np.ones((kernel_size, kernel_size)) / kernel_size ** 2`. -/
noncomputable def boxFilter {h w : ℕ} (ch : Channel h w) (k : ℕ) : Channel h w :=
  filter2D ch k (fun _ _ => 1 / (k : ℝ) ^ 2)

/-- The 3 x 3 kernel OpenCV applies for `cv2.Laplacian` at the default
aperture size 1: rows (0, 1, 0), (1, -4, 1), (0, 1, 0). -/
def lapKer (a b : ℕ) : ℝ :=
  if a = 1 ∧ b = 1 then -4
  else if (a = 1 ∧ (b = 0 ∨ b = 2)) ∨ (b = 1 ∧ (a = 0 ∨ a = 2)) then 1
  else 0

/-- Models `cv2.Laplacian(L, cv2.CV_64F)` with its default ksize = 1. -/
def laplacian {h w : ℕ} (ch : Channel h w) : Channel h w :=
  filter2D ch 3 lapKer

/-- Models `cv2.cvtColor(bgr, cv2.COLOR_BGR2RGB)`: a pure channel swap. -/
def bgr2rgb {h w : ℕ} (img : Img8 h w) : Img8 h w :=
  fun y x => ((img y x).2.2, (img y x).2.1, (img y x).1)

/-- Models the sRGB linearization step of `skimage.color.rgb2xyz`. -/
noncomputable def srgbToLinear (c : ℝ) : ℝ :=
  if c ≤ 0.04045 then c / 12.92 else ((c + 0.055) / 1.055) ^ (2.4 : ℝ)

/-- Models the cube-root branch function of `skimage.color.xyz2lab`. -/
noncomputable def labFun (t : ℝ) : ℝ :=
  if 0.008856 < t then t ^ ((1 : ℝ) / 3) else 7.787 * t + 16 / 116

/-- Models `skimage.color.rgb2lab` on a single 8-bit (R, G, B) pixel, with the
D65 / 2-degree reference white used by skimage. -/
noncomputable def rgb2labPixel (p : ℕ × ℕ × ℕ) : ℝ × ℝ × ℝ :=
  let r := srgbToLinear ((p.1 : ℝ) / 255)
  let g := srgbToLinear ((p.2.1 : ℝ) / 255)
  let bl := srgbToLinear ((p.2.2 : ℝ) / 255)
  let X := 0.412453 * r + 0.357580 * g + 0.180423 * bl
  let Y := 0.212671 * r + 0.715160 * g + 0.072169 * bl
  let Z := 0.019334 * r + 0.119193 * g + 0.950227 * bl
  let fx := labFun (X / 0.95047)
  let fy := labFun Y
  let fz := labFun (Z / 1.08883)
  (116 * fy - 16, 500 * (fx - fy), 200 * (fy - fz))

/-- The L channel of `color.rgb2lab(rgb)`. -/
noncomputable def Lchan {h w : ℕ} (rgb : Img8 h w) : Channel h w :=
  fun y x => (rgb2labPixel (rgb y x)).1

/-- The a channel of `color.rgb2lab(rgb)`. -/
noncomputable def achan {h w : ℕ} (rgb : Img8 h w) : Channel h w :=
  fun y x => (rgb2labPixel (rgb y x)).2.1

/-- The b channel of `color.rgb2lab(rgb)`. -/
noncomputable def bchan {h w : ℕ} (rgb : Img8 h w) : Channel h w :=
  fun y x => (rgb2labPixel (rgb y x)).2.2

/-- Models `cv2.cvtColor(bgr, cv2.COLOR_BGR2GRAY)` on one (B, G, R) pixel,
using OpenCV's fixed-point coefficients (4899, 9617, 1868) / 2^14 for
(R, G, B) with rounding. -/
def bgr2grayPixel (p : ℕ × ℕ × ℕ) : ℕ :=
  (1868 * p.1 + 9617 * p.2.1 + 4899 * p.2.2 + 8192) / 16384

/-- The grayscale image fed to the histogram. -/
def grayImage {h w : ℕ} (bgr : Img8 h w) : Fin h → Fin w → ℕ :=
  fun y x => bgr2grayPixel (bgr y x)

/-- Models `cv2.calcHist([gray], [0], None, [256], [0, 256])`: bin v counts
the pixels of value v. -/
def hist {h w : ℕ} (g : Fin h → Fin w → ℕ) (v : ℕ) : ℕ :=
  (Finset.univ.filter (fun p : Fin h × Fin w => g p.1 p.2 = v)).card

/-- Models `hist.sum()`, the total over the 256 bins. -/
def histTotal {h w : ℕ} (g : Fin h → Fin w → ℕ) : ℝ :=
  ∑ v ∈ Finset.range 256, (hist g v : ℝ)

/-- Models IEEE-754 binary32 (numpy float32) round-to-nearest of a positive
real number in the normal range: the value is scaled into [2^23, 2^24) by its
binade exponent, the significand is rounded to an integer (24 significant
bits), and the result is scaled back.  Every value this development feeds it
lies in (1e-9, 1.01), far inside the normal range, and none lies at a
rounding tie, so the tie-breaking rule is immaterial.  Non-positive
arguments return 0; they are never reached here. -/
noncomputable def rnd32 (x : ℝ) : ℝ :=
  if 0 < x then
    ((round (x * (2 : ℝ) ^ ((23 : ℤ) - ⌊Real.logb 2 x⌋)) : ℤ) : ℝ)
      * (2 : ℝ) ^ (⌊Real.logb 2 x⌋ - 23)
  else 0

/-- Models `entropy_val = -np.sum(hist * np.log2(hist + 1e-9))` after the
normalization `hist = hist / hist.sum()`.  The whole expression is float32
in the program; the one rounding step that changes the mathematics is the
addition `hist + 1e-9`, where the floor vanishes against any probability
whose half-ulp exceeds 1e-9 (in particular `1.0f + 1e-9 = 1.0f`), so that
addition is taken through `rnd32`. -/
noncomputable def entropyVal {h w : ℕ} (g : Fin h → Fin w → ℕ) : ℝ :=
  -∑ v ∈ Finset.range 256,
      (hist g v : ℝ) / histTotal g *
        Real.logb 2 (rnd32 ((hist g v : ℝ) / histTotal g + 1e-9))

/-- The aesthetic charge field computed once the image has been decoded:
`q = w1*|L - L_mean| + w2*|a - a_mean| + w3*|b - b_mean| + w4*|L_lap| +
w5*entropy`, with the entropy scalar broadcast as a constant field. -/
noncomputable def qField {h w : ℕ} (bgr : Img8 h w) (kernel_size : ℕ)
    (w1 w2 w3 w4 w5 : ℝ) : Channel h w :=
  let rgb := bgr2rgb bgr
  let L := Lchan rgb
  let A := achan rgb
  let B := bchan rgb
  let L_mean := boxFilter L kernel_size
  let a_mean := boxFilter A kernel_size
  let b_mean := boxFilter B kernel_size
  let L_lap := laplacian L
  let e := entropyVal (grayImage bgr)
  fun y x =>
    w1 * |L y x - L_mean y x| + w2 * |A y x - a_mean y x| +
    w3 * |B y x - b_mean y x| + w4 * |L_lap y x| + w5 * e

/-- Failure outcomes of one call.  `cvError` models an OpenCV `cv2.error`
(raised by `cv2.cvtColor` on a `None` image, or by `cv2.filter2D` on an empty
kernel); `valueError` models a Python `ValueError` (raised when unpacking a
weights sequence whose length is not 5).  `invalidInput` and
`invalidParameter` are Modelled from the spec: the spec's error taxonomy
names `InvalidInput` and `InvalidParameter`, but the source defines no such
errors and never raises them. -/
inductive PyError
  | cvError
  | valueError
  | invalidInput
  | invalidParameter
  deriving DecidableEq

/-- The disk contents seen by `cv2.imread`: each path decodes to an image or
to `None`. -/
abbrev FileSystem (h w : ℕ) := String → Option (Img8 h w)

/-- Models `compute_aesthetic_charge(image_path, kernel_size, weights)` from
`src/aesthetic_charge.py`.  `cv2.imread` is a lookup of the path in the
filesystem; a `None` result makes `cv2.cvtColor` raise a `cv2.error`.
`kernel_size = 0` makes `cv2.filter2D` raise on an empty kernel (the source
never checks `kernel_size`).  The weights sequence is unpacked as
`w1, w2, w3, w4, w5 = weights`, and any other length raises a `ValueError`;
the entries themselves are never checked.  On success the function returns
the charge field together with the RGB-converted image. -/
noncomputable def compute_aesthetic_charge {h w : ℕ} (fs : FileSystem h w)
    (image_path : String) (kernel_size : ℕ) (weights : List ℝ) :
    Except PyError (Channel h w × Img8 h w) :=
  match fs image_path with
  | none => .error .cvError
  | some bgr =>
    if kernel_size = 0 then .error .cvError
    else
      match weights with
      | [w1, w2, w3, w4, w5] =>
        .ok (qField bgr kernel_size w1 w2 w3 w4 w5, bgr2rgb bgr)
      | _ => .error .valueError

/-- A 4 x 4 flat gray image (every pixel (128, 128, 128)): the spec's
flat-image scenario. -/
def imgFlat4 : Img8 4 4 := fun _ _ => (128, 128, 128)

/-- A 1 x 2 image, both pixels black. -/
def imgFlat12 : Img8 1 2 := fun _ _ => (0, 0, 0)

/-- A 1 x 2 image with one black and one white pixel: its grayscale histogram
occupies two bins. -/
def imgBW : Img8 1 2 := fun _ x => if x = 0 then (0, 0, 0) else (255, 255, 255)

/-- A fixed path used for concrete calls. -/
def path0 : String := "img.png"

theorem sample_const {h w : ℕ} (c : ℝ) (hh : 0 < h) (hw : 0 < w) (y x : ℤ) :
    sample (fun _ _ => c) hh hw y x = c := rfl

theorem boxFilter_const {h w : ℕ} (c : ℝ) {k : ℕ} (hk : k ≠ 0)
    (y : Fin h) (x : Fin w) : boxFilter (fun _ _ => c) k y x = c := by
  have hkR : (k : ℝ) ≠ 0 := Nat.cast_ne_zero.mpr hk
  unfold boxFilter filter2D
  simp only [sample_const, Finset.sum_const, Finset.card_range, nsmul_eq_mul]
  field_simp
  ring

theorem laplacian_const {h w : ℕ} (c : ℝ) (y : Fin h) (x : Fin w) :
    laplacian (fun _ _ => c) y x = 0 := by
  unfold laplacian filter2D
  simp only [sample_const]
  norm_num [Finset.sum_range_succ, lapKer]
  ring

theorem laplacian_stencil_aux {h w : ℕ} (ch : Channel h w) (y : Fin h) (x : Fin w) :
    laplacian ch y x =
      sample ch y.pos x.pos ((y : ℤ) - 1) ((x : ℤ)) +
      sample ch y.pos x.pos ((y : ℤ)) ((x : ℤ) - 1) +
      sample ch y.pos x.pos ((y : ℤ)) ((x : ℤ) + 1) +
      sample ch y.pos x.pos ((y : ℤ) + 1) ((x : ℤ)) -
      4 * sample ch y.pos x.pos ((y : ℤ)) ((x : ℤ)) := by
  unfold laplacian filter2D
  norm_num [Finset.sum_range_succ, lapKer]
  ring_nf

theorem bgr2grayPixel_diag (v : ℕ) : bgr2grayPixel (v, v, v) = v := by
  show (1868 * v + 9617 * v + 4899 * v + 8192) / 16384 = v
  omega

theorem grayImage_const {h w : ℕ} (v : ℕ) :
    grayImage (fun (_ : Fin h) (_ : Fin w) => (v, v, v)) = fun _ _ => v := by
  funext y x
  exact bgr2grayPixel_diag v

theorem hist_const {h w : ℕ} (g v : ℕ) :
    hist (fun (_ : Fin h) (_ : Fin w) => g) v = if g = v then h * w else 0 := by
  unfold hist
  by_cases hgv : g = v
  · simp [hgv, Finset.filter_true_of_mem]
  · simp [hgv]

theorem histTotal_const {h w : ℕ} {g : ℕ} (hg : g < 256) :
    histTotal (fun (_ : Fin h) (_ : Fin w) => g) = (h : ℝ) * w := by
  unfold histTotal
  rw [Finset.sum_congr rfl fun v _ => by rw [hist_const]]
  push_cast
  rw [Finset.sum_ite_eq]
  simp [Finset.mem_range.mpr hg]

theorem logb_two_half : Real.logb 2 ((1 : ℝ) / 2) = -1 := by
  rw [one_div, Real.logb_inv, Real.logb_self_eq_one]
  norm_num

theorem zpow_floor_logb_le {x : ℝ} (hx : 0 < x) : (2 : ℝ) ^ ⌊Real.logb 2 x⌋ ≤ x := by
  calc (2 : ℝ) ^ ⌊Real.logb 2 x⌋ = (2 : ℝ) ^ ((⌊Real.logb 2 x⌋ : ℝ)) :=
        (Real.rpow_intCast 2 _).symm
    _ ≤ (2 : ℝ) ^ Real.logb 2 x :=
        Real.rpow_le_rpow_of_exponent_le (by norm_num) (Int.floor_le _)
    _ = x := Real.rpow_logb (by norm_num) (by norm_num) hx

theorem lt_zpow_floor_logb_succ {x : ℝ} (hx : 0 < x) :
    x < (2 : ℝ) ^ (⌊Real.logb 2 x⌋ + 1) := by
  calc x = (2 : ℝ) ^ Real.logb 2 x :=
        (Real.rpow_logb (by norm_num) (by norm_num) hx).symm
    _ < (2 : ℝ) ^ (((⌊Real.logb 2 x⌋ + 1 : ℤ) : ℝ)) := by
        apply Real.rpow_lt_rpow_of_exponent_lt (by norm_num)
        push_cast
        exact Int.lt_floor_add_one _
    _ = (2 : ℝ) ^ (⌊Real.logb 2 x⌋ + 1) := Real.rpow_intCast 2 _

theorem floor_logb_two {e : ℤ} {x : ℝ} (h1 : (2 : ℝ) ^ e ≤ x)
    (h2 : x < (2 : ℝ) ^ (e + 1)) : ⌊Real.logb 2 x⌋ = e := by
  have hx : 0 < x := lt_of_lt_of_le (zpow_pos (by norm_num) e) h1
  have hle : (e : ℝ) ≤ Real.logb 2 x := by
    rw [Real.le_logb_iff_rpow_le (by norm_num) hx, Real.rpow_intCast]
    exact h1
  have hlt : Real.logb 2 x < (e : ℝ) + 1 := by
    rw [show ((e : ℝ) + 1) = (((e + 1 : ℤ)) : ℝ) by push_cast; ring,
      Real.logb_lt_iff_lt_rpow (by norm_num) hx, Real.rpow_intCast]
    exact h2
  exact Int.floor_eq_iff.mpr ⟨hle, hlt⟩

theorem rnd32_eq {e : ℤ} {x : ℝ} (h1 : (2 : ℝ) ^ e ≤ x) (h2 : x < (2 : ℝ) ^ (e + 1)) :
    rnd32 x = ((round (x * (2 : ℝ) ^ ((23 : ℤ) - e)) : ℤ) : ℝ) * (2 : ℝ) ^ (e - 23) := by
  have hx : 0 < x := lt_of_lt_of_le (zpow_pos (by norm_num) e) h1
  unfold rnd32
  rw [if_pos hx, floor_logb_two h1 h2]

theorem rnd32_round_interval {e : ℤ} {x : ℝ} (h1 : (2 : ℝ) ^ e ≤ x)
    (h2 : x < (2 : ℝ) ^ (e + 1))
    (hround : round (x * (2 : ℝ) ^ ((23 : ℤ) - e)) = 2 ^ 23) :
    rnd32 x = (2 : ℝ) ^ e := by
  rw [rnd32_eq h1 h2, hround]
  push_cast
  rw [show (8388608 : ℝ) = (2 : ℝ) ^ (23 : ℤ) by norm_num,
    ← zpow_add₀ (by norm_num : (2 : ℝ) ≠ 0)]
  congr 1
  ring

theorem rnd32_one_add {x : ℝ} (hx1 : 1 ≤ x) (hx2 : x ≤ 1 + 1e-9) : rnd32 x = 1 := by
  have h1 : (2 : ℝ) ^ (0 : ℤ) ≤ x := by rw [zpow_zero]; exact hx1
  have h2 : x < (2 : ℝ) ^ ((0 : ℤ) + 1) := by norm_num; linarith
  have hpw : (2 : ℝ) ^ ((23 : ℤ) - 0) = 8388608 := by norm_num
  have hm : round (x * (2 : ℝ) ^ ((23 : ℤ) - 0)) = 2 ^ 23 := by
    rw [round_eq, hpw]
    apply Int.floor_eq_iff.mpr
    constructor
    · push_cast
      nlinarith
    · push_cast
      nlinarith
  have hv := rnd32_round_interval h1 h2 hm
  rwa [zpow_zero] at hv

theorem rnd32_half_interval {x : ℝ} (hx1 : 1 / 2 ≤ x) (hx2 : x ≤ 1 / 2 + 1e-9) :
    rnd32 x = 1 / 2 := by
  have h1 : (2 : ℝ) ^ (-1 : ℤ) ≤ x := by
    rw [show (2 : ℝ) ^ (-1 : ℤ) = 1 / 2 by norm_num]
    exact hx1
  have h2 : x < (2 : ℝ) ^ ((-1 : ℤ) + 1) := by norm_num; linarith
  have hpw : (2 : ℝ) ^ ((23 : ℤ) - (-1)) = 16777216 := by norm_num
  have hm : round (x * (2 : ℝ) ^ ((23 : ℤ) - (-1))) = 2 ^ 23 := by
    rw [round_eq, hpw]
    apply Int.floor_eq_iff.mpr
    constructor
    · push_cast
      nlinarith
    · push_cast
      nlinarith
  have hv := rnd32_round_interval h1 h2 hm
  rwa [show (2 : ℝ) ^ (-1 : ℤ) = 1 / 2 by norm_num] at hv

theorem rnd32_le_zpow_succ {e : ℤ} {x : ℝ} (h1 : (2 : ℝ) ^ e ≤ x)
    (h2 : x < (2 : ℝ) ^ (e + 1)) : rnd32 x ≤ (2 : ℝ) ^ (e + 1) := by
  rw [rnd32_eq h1 h2]
  have hmlt : x * (2 : ℝ) ^ ((23 : ℤ) - e) < (2 : ℝ) ^ (24 : ℤ) := by
    calc x * (2 : ℝ) ^ ((23 : ℤ) - e)
        < (2 : ℝ) ^ (e + 1) * (2 : ℝ) ^ ((23 : ℤ) - e) :=
          mul_lt_mul_of_pos_right h2 (zpow_pos (by norm_num) _)
      _ = (2 : ℝ) ^ (24 : ℤ) := by
          rw [← zpow_add₀ (by norm_num : (2 : ℝ) ≠ 0)]
          congr 1
          ring
  have habs := abs_le.mp (abs_sub_round (x * (2 : ℝ) ^ ((23 : ℤ) - e)))
  have hint : round (x * (2 : ℝ) ^ ((23 : ℤ) - e)) ≤ 2 ^ 24 := by
    have hlt : ((round (x * (2 : ℝ) ^ ((23 : ℤ) - e)) : ℤ) : ℝ)
        < ((2 ^ 24 + 1 : ℤ) : ℝ) := by
      have h24 : (2 : ℝ) ^ (24 : ℤ) = 16777216 := by norm_num
      push_cast
      linarith [habs.1, habs.2]
    have := Int.cast_lt.mp hlt
    omega
  calc ((round (x * (2 : ℝ) ^ ((23 : ℤ) - e)) : ℤ) : ℝ) * (2 : ℝ) ^ (e - 23)
      ≤ ((2 ^ 24 : ℤ) : ℝ) * (2 : ℝ) ^ (e - 23) := by
        apply mul_le_mul_of_nonneg_right _ (le_of_lt (zpow_pos (by norm_num) _))
        exact_mod_cast hint
    _ = (2 : ℝ) ^ (e + 1) := by
        push_cast
        rw [show (16777216 : ℝ) = (2 : ℝ) ^ (24 : ℤ) by norm_num,
          ← zpow_add₀ (by norm_num : (2 : ℝ) ≠ 0)]
        congr 1
        ring

theorem zpow_le_rnd32 {e : ℤ} {x : ℝ} (h1 : (2 : ℝ) ^ e ≤ x)
    (h2 : x < (2 : ℝ) ^ (e + 1)) : (2 : ℝ) ^ e ≤ rnd32 x := by
  rw [rnd32_eq h1 h2]
  have hmge : (2 : ℝ) ^ (23 : ℤ) ≤ x * (2 : ℝ) ^ ((23 : ℤ) - e) := by
    calc (2 : ℝ) ^ (23 : ℤ) = (2 : ℝ) ^ e * (2 : ℝ) ^ ((23 : ℤ) - e) := by
          rw [← zpow_add₀ (by norm_num : (2 : ℝ) ≠ 0)]
          congr 1
          ring
      _ ≤ x * (2 : ℝ) ^ ((23 : ℤ) - e) :=
          mul_le_mul_of_nonneg_right h1 (le_of_lt (zpow_pos (by norm_num) _))
  have habs := abs_le.mp (abs_sub_round (x * (2 : ℝ) ^ ((23 : ℤ) - e)))
  have hint : (2 : ℤ) ^ 23 ≤ round (x * (2 : ℝ) ^ ((23 : ℤ) - e)) := by
    have hgt : ((2 ^ 23 - 1 : ℤ) : ℝ)
        < ((round (x * (2 : ℝ) ^ ((23 : ℤ) - e)) : ℤ) : ℝ) := by
      have h23 : (2 : ℝ) ^ (23 : ℤ) = 8388608 := by norm_num
      push_cast
      linarith [habs.1, habs.2]
    have := Int.cast_lt.mp hgt
    omega
  calc (2 : ℝ) ^ e = ((2 ^ 23 : ℤ) : ℝ) * (2 : ℝ) ^ (e - 23) := by
        push_cast
        rw [show (8388608 : ℝ) = (2 : ℝ) ^ (23 : ℤ) by norm_num,
          ← zpow_add₀ (by norm_num : (2 : ℝ) ≠ 0)]
        congr 1
        ring
    _ ≤ ((round (x * (2 : ℝ) ^ ((23 : ℤ) - e)) : ℤ) : ℝ) * (2 : ℝ) ^ (e - 23) := by
        apply mul_le_mul_of_nonneg_right _ (le_of_lt (zpow_pos (by norm_num) _))
        exact_mod_cast hint

theorem rnd32_pos {x : ℝ} (hx : 0 < x) : 0 < rnd32 x :=
  lt_of_lt_of_le (zpow_pos (by norm_num) _)
    (zpow_le_rnd32 (zpow_floor_logb_le hx) (lt_zpow_floor_logb_succ hx))

theorem rnd32_le_one {x : ℝ} (hx : 0 < x) (hx2 : x ≤ 1 + 1e-9) : rnd32 x ≤ 1 := by
  rcases le_or_lt 1 x with h1 | h1
  · rw [rnd32_one_add h1 hx2]
  · have hneg : Real.logb 2 x < 0 := Real.logb_neg (by norm_num) hx h1
    have hfl : ⌊Real.logb 2 x⌋ + 1 ≤ 0 := by
      have hlt : ⌊Real.logb 2 x⌋ < 0 := by
        by_contra hcon
        push_neg at hcon
        have hc : (0 : ℝ) ≤ (⌊Real.logb 2 x⌋ : ℝ) := by exact_mod_cast hcon
        have hle := Int.floor_le (Real.logb 2 x)
        linarith
      omega
    calc rnd32 x ≤ (2 : ℝ) ^ (⌊Real.logb 2 x⌋ + 1) :=
          rnd32_le_zpow_succ (zpow_floor_logb_le hx) (lt_zpow_floor_logb_succ hx)
      _ ≤ 1 := zpow_le_one_of_nonpos₀ (by norm_num) hfl

theorem rnd32_le_half {x : ℝ} (hx : 0 < x) (hx2 : x ≤ 1 / 2 + 1e-9) :
    rnd32 x ≤ 1 / 2 := by
  rcases le_or_lt (1 / 2) x with h1 | h1
  · rw [rnd32_half_interval h1 hx2]
  · have hneg : Real.logb 2 x < -1 := by
      have hmono : Real.logb 2 x < Real.logb 2 ((1 : ℝ) / 2) :=
        Real.logb_lt_logb (by norm_num) hx h1
      rwa [logb_two_half] at hmono
    have hfl : ⌊Real.logb 2 x⌋ + 1 ≤ -1 := by
      have hlt : ⌊Real.logb 2 x⌋ < -1 := by
        by_contra hcon
        push_neg at hcon
        have hc : ((-1 : ℤ) : ℝ) ≤ (⌊Real.logb 2 x⌋ : ℝ) := by exact_mod_cast hcon
        have hle := Int.floor_le (Real.logb 2 x)
        push_cast at hc
        linarith
      omega
    calc rnd32 x ≤ (2 : ℝ) ^ (⌊Real.logb 2 x⌋ + 1) :=
          rnd32_le_zpow_succ (zpow_floor_logb_le hx) (lt_zpow_floor_logb_succ hx)
      _ ≤ (2 : ℝ) ^ (-1 : ℤ) := zpow_le_zpow_right₀ (by norm_num) hfl
      _ = 1 / 2 := by norm_num

theorem entropyVal_const {h w : ℕ} (hh : 0 < h) (hw : 0 < w) {g : ℕ} (hg : g < 256) :
    entropyVal (fun (_ : Fin h) (_ : Fin w) => g) = 0 := by
  have hHW : ((h : ℝ) * w) ≠ 0 := by positivity
  have hr : rnd32 (1 + 1e-9) = 1 := rnd32_one_add (by norm_num) (by norm_num)
  unfold entropyVal
  rw [histTotal_const hg]
  rw [Finset.sum_eq_zero, neg_zero]
  intro v _
  rw [hist_const]
  by_cases hgv : g = v
  · have h1 : ((h : ℝ) * w) / ((h : ℝ) * w) = 1 := div_self hHW
    simp [hgv, h1, hr, Real.logb_one]
  · simp [hgv]

theorem hist_bw (v : ℕ) :
    hist (grayImage imgBW) v = (if 0 = v then 1 else 0) + (if 255 = v then 1 else 0) := by
  have g00 : grayImage imgBW 0 0 = 0 := by decide
  have g01 : grayImage imgBW 0 1 = 255 := by decide
  unfold hist
  rw [Finset.card_filter, Fintype.sum_prod_type, Fin.sum_univ_one, Fin.sum_univ_two]
  simp only [g00, g01]

theorem histTotal_bw : histTotal (grayImage imgBW) = 2 := by
  unfold histTotal
  rw [Finset.sum_congr rfl fun v _ => by rw [hist_bw]]
  push_cast
  rw [Finset.sum_add_distrib, Finset.sum_ite_eq, Finset.sum_ite_eq]
  norm_num

theorem entropyVal_bw : entropyVal (grayImage imgBW) = 1 := by
  have hr : rnd32 ((1 : ℝ) / 2 + 1e-9) = 1 / 2 :=
    rnd32_half_interval (by norm_num) (by norm_num)
  unfold entropyVal
  rw [histTotal_bw]
  have hterm : ∀ v ∈ Finset.range 256,
      (hist (grayImage imgBW) v : ℝ) / 2 *
          Real.logb 2 (rnd32 ((hist (grayImage imgBW) v : ℝ) / 2 + 1e-9))
        = (if 0 = v then (-1 : ℝ) / 2 else 0) + (if 255 = v then (-1 : ℝ) / 2 else 0) := by
    intro v _
    rw [hist_bw]
    push_cast
    by_cases h0 : 0 = v
    · have h255 : ¬ (255 = v) := by omega
      simp only [if_pos h0, if_neg h255]
      rw [show ((1 : ℝ) + 0) / 2 = 1 / 2 by norm_num, hr, logb_two_half]
      norm_num
    · by_cases h255 : 255 = v
      · simp only [if_neg h0, if_pos h255]
        rw [show ((0 : ℝ) + 1) / 2 = 1 / 2 by norm_num, hr, logb_two_half]
        norm_num
      · simp only [if_neg h0, if_neg h255]
        norm_num
  rw [Finset.sum_congr rfl hterm, Finset.sum_add_distrib, Finset.sum_ite_eq,
    Finset.sum_ite_eq]
  norm_num

theorem histTotal_nonneg {h w : ℕ} (g : Fin h → Fin w → ℕ) : 0 ≤ histTotal g := by
  unfold histTotal
  exact Finset.sum_nonneg fun v _ => Nat.cast_nonneg _

theorem hist_le_histTotal {h w : ℕ} (g : Fin h → Fin w → ℕ) {v : ℕ}
    (hv : v ∈ Finset.range 256) : (hist g v : ℝ) ≤ histTotal g := by
  have hs : ∀ i ∈ Finset.range 256, (0 : ℝ) ≤ (hist g i : ℝ) := fun i _ => by positivity
  unfold histTotal
  exact Finset.single_le_sum hs hv

theorem entropy_term_nonpos {h w : ℕ} (g : Fin h → Fin w → ℕ) {v : ℕ}
    (hv : v ∈ Finset.range 256) :
    (hist g v : ℝ) / histTotal g *
        Real.logb 2 (rnd32 ((hist g v : ℝ) / histTotal g + 1e-9)) ≤ 0 := by
  have hp0 : 0 ≤ (hist g v : ℝ) / histTotal g :=
    div_nonneg (Nat.cast_nonneg _) (histTotal_nonneg g)
  have hp1 : (hist g v : ℝ) / histTotal g ≤ 1 := by
    rcases eq_or_lt_of_le (histTotal_nonneg g) with h0 | h0
    · rw [← h0, div_zero]
      norm_num
    · rw [div_le_one h0]
      exact hist_le_histTotal g hv
  have hlog : Real.logb 2 (rnd32 ((hist g v : ℝ) / histTotal g + 1e-9)) ≤ 0 := by
    apply Real.logb_nonpos (by norm_num)
    · exact le_of_lt (rnd32_pos (by linarith))
    · exact rnd32_le_one (by linarith) (by linarith)
  exact mul_nonpos_of_nonneg_of_nonpos hp0 hlog

theorem entropyVal_nonneg {h w : ℕ} (g : Fin h → Fin w → ℕ) : 0 ≤ entropyVal g := by
  unfold entropyVal
  rw [neg_nonneg]
  exact Finset.sum_nonpos fun v hv => entropy_term_nonpos g hv

theorem entropyVal_pos_aux {h w : ℕ} (g : Fin h → Fin w → ℕ) {v0 : ℕ} (hv0 : v0 < 256)
    (hocc : hist g v0 ≠ 0)
    (hhalf : 2 * hist g v0 ≤ ∑ v ∈ Finset.range 256, hist g v) :
    0 < entropyVal g := by
  have hv0m : v0 ∈ Finset.range 256 := Finset.mem_range.mpr hv0
  have htot : (0 : ℝ) < histTotal g := by
    unfold histTotal
    rw [← Nat.cast_sum]
    have hps : 0 < ∑ v ∈ Finset.range 256, hist g v := by omega
    exact_mod_cast hps
  have hp_pos : 0 < (hist g v0 : ℝ) / histTotal g :=
    div_pos (by exact_mod_cast Nat.pos_of_ne_zero hocc) htot
  have hp_half : (hist g v0 : ℝ) / histTotal g ≤ 1 / 2 := by
    rw [div_le_iff₀ htot]
    have hc : ((2 * hist g v0 : ℕ) : ℝ) ≤ histTotal g := by
      unfold histTotal
      rw [← Nat.cast_sum]
      exact_mod_cast hhalf
    push_cast at hc
    linarith
  have hterm : (hist g v0 : ℝ) / histTotal g *
      Real.logb 2 (rnd32 ((hist g v0 : ℝ) / histTotal g + 1e-9)) < 0 := by
    apply mul_neg_of_pos_of_neg hp_pos
    apply Real.logb_neg (by norm_num)
    · exact rnd32_pos (by linarith)
    · have hub := rnd32_le_half (by linarith : (0 : ℝ) < (hist g v0 : ℝ) / histTotal g + 1e-9)
        (by linarith)
      linarith
  unfold entropyVal
  rw [neg_pos]
  have hsplit : ∑ v ∈ Finset.range 256,
      (hist g v : ℝ) / histTotal g *
        Real.logb 2 (rnd32 ((hist g v : ℝ) / histTotal g + 1e-9))
      = (∑ v ∈ Finset.range 256 \ {v0},
          (hist g v : ℝ) / histTotal g *
            Real.logb 2 (rnd32 ((hist g v : ℝ) / histTotal g + 1e-9)))
        + (hist g v0 : ℝ) / histTotal g *
            Real.logb 2 (rnd32 ((hist g v0 : ℝ) / histTotal g + 1e-9)) :=
    Finset.sum_eq_sum_diff_singleton_add hv0m _
  rw [hsplit]
  have hrest : (∑ v ∈ Finset.range 256 \ {v0},
      (hist g v : ℝ) / histTotal g *
        Real.logb 2 (rnd32 ((hist g v : ℝ) / histTotal g + 1e-9))) ≤ 0 :=
    Finset.sum_nonpos fun v hv => entropy_term_nonpos g (Finset.mem_sdiff.mp hv).1
  linarith

theorem entropyVal_pos_of_two_bins {h w : ℕ} (g : Fin h → Fin w → ℕ)
    {v1 v2 : ℕ} (hv1 : v1 < 256) (hv2 : v2 < 256) (hne : v1 ≠ v2)
    (h1 : hist g v1 ≠ 0) (h2 : hist g v2 ≠ 0) : 0 < entropyVal g := by
  have hpair : hist g v1 + hist g v2 ≤ ∑ v ∈ Finset.range 256, hist g v := by
    have hsub : ({v1, v2} : Finset ℕ) ⊆ Finset.range 256 := by
      intro t ht
      rcases Finset.mem_insert.mp ht with rfl | ht2
      · exact Finset.mem_range.mpr hv1
      · rw [Finset.mem_singleton.mp ht2]
        exact Finset.mem_range.mpr hv2
    calc hist g v1 + hist g v2 = ∑ v ∈ ({v1, v2} : Finset ℕ), hist g v :=
          (Finset.sum_pair hne).symm
      _ ≤ ∑ v ∈ Finset.range 256, hist g v := Finset.sum_le_sum_of_subset hsub
  rcases le_total (hist g v1) (hist g v2) with hle | hle
  · exact entropyVal_pos_aux g hv1 h1 (by omega)
  · exact entropyVal_pos_aux g hv2 h2 (by omega)

theorem qField_entropy_iso {h w : ℕ} (bgr : Img8 h w) (k : ℕ) (w5 : ℝ)
    (y : Fin h) (x : Fin w) :
    qField bgr k 0 0 0 0 w5 y x = w5 * entropyVal (grayImage bgr) := by
  simp only [qField]
  ring

/-- Claim C1: for every decodable 3-channel image and every 5-tuple of
weights, the call returns, together with the RGB-converted image, the field
that at every pixel equals w1*|L - local_mean(L)| + w2*|a - local_mean(a)| +
w3*|b - local_mean(b)| + w4*|Laplacian(L)| + w5*entropy_const, where
local_mean is the normalized kernel_size x kernel_size box filter and
entropy_const is the global histogram entropy scalar. -/
theorem C1_pipeline_formula {h w : ℕ} (fs : FileSystem h w) (p : String)
    (bgr : Img8 h w) (hfs : fs p = some bgr) {k : ℕ} (hk : k ≠ 0)
    (w1 w2 w3 w4 w5 : ℝ) :
    compute_aesthetic_charge fs p k [w1, w2, w3, w4, w5]
        = .ok (qField bgr k w1 w2 w3 w4 w5, bgr2rgb bgr)
    ∧ ∀ (y : Fin h) (x : Fin w),
        qField bgr k w1 w2 w3 w4 w5 y x
          = w1 * |Lchan (bgr2rgb bgr) y x - boxFilter (Lchan (bgr2rgb bgr)) k y x|
          + w2 * |achan (bgr2rgb bgr) y x - boxFilter (achan (bgr2rgb bgr)) k y x|
          + w3 * |bchan (bgr2rgb bgr) y x - boxFilter (bchan (bgr2rgb bgr)) k y x|
          + w4 * |laplacian (Lchan (bgr2rgb bgr)) y x|
          + w5 * entropyVal (grayImage bgr) := by
  constructor
  · unfold compute_aesthetic_charge
    rw [hfs]
    simp [hk]
  · intro y x
    simp only [qField]

/-- Witness for C1 at a concrete decodable image and kernel size 5. -/
theorem C1_pipeline_formula_witness :
    ((fun _ => some imgFlat12 : FileSystem 1 2) path0 = some imgFlat12)
    ∧ (5 : ℕ) ≠ 0
    ∧ compute_aesthetic_charge (fun _ => some imgFlat12) path0 5 [1, 1, 1, 1 / 2, 3 / 10]
        = .ok (qField imgFlat12 5 1 1 1 (1 / 2) (3 / 10), bgr2rgb imgFlat12)
    ∧ qField imgFlat12 5 1 1 1 (1 / 2) (3 / 10) 0 0
        = 1 * |Lchan (bgr2rgb imgFlat12) 0 0 - boxFilter (Lchan (bgr2rgb imgFlat12)) 5 0 0|
        + 1 * |achan (bgr2rgb imgFlat12) 0 0 - boxFilter (achan (bgr2rgb imgFlat12)) 5 0 0|
        + 1 * |bchan (bgr2rgb imgFlat12) 0 0 - boxFilter (bchan (bgr2rgb imgFlat12)) 5 0 0|
        + 1 / 2 * |laplacian (Lchan (bgr2rgb imgFlat12)) 0 0|
        + 3 / 10 * entropyVal (grayImage imgFlat12) :=
  ⟨rfl, by norm_num,
    (C1_pipeline_formula (fun _ => some imgFlat12) path0 imgFlat12 rfl (by norm_num)
      1 1 1 (1 / 2) (3 / 10)).1,
    (C1_pipeline_formula (fun _ => some imgFlat12) path0 imgFlat12 rfl (by norm_num)
      1 1 1 (1 / 2) (3 / 10)).2 0 0⟩

/-- Claim C2 counterexample: kernel_size = 4 (even) does not fail — the call
succeeds and produces a field; in particular it does not fail with the
spec's InvalidParameter error. -/
theorem C2_no_validation_counterexample :
    compute_aesthetic_charge (fun _ => some imgFlat12) path0 4 [1, 1, 1, 1 / 2, 3 / 10]
        = .ok (qField imgFlat12 4 1 1 1 (1 / 2) (3 / 10), bgr2rgb imgFlat12)
    ∧ compute_aesthetic_charge (fun _ => some imgFlat12) path0 4 [1, 1, 1, 1 / 2, 3 / 10]
        ≠ .error PyError.invalidParameter := by
  refine ⟨rfl, ?_⟩
  rw [show compute_aesthetic_charge (fun _ => some imgFlat12) path0 4 [1, 1, 1, 1 / 2, 3 / 10]
      = .ok (qField imgFlat12 4 1 1 1 (1 / 2) (3 / 10), bgr2rgb imgFlat12) from rfl]
  simp

/-- Claim C2 amended: the source performs no parameter validation.  An even
kernel_size such as 4 is accepted and the computation proceeds to a field; a
weights sequence whose length is not 5 fails only when the tuple unpacking
raises a generic ValueError (after the image has been read), and the weight
values themselves are never checked, so negative weights are accepted. -/
theorem C2_amended :
    (∀ (h w : ℕ) (fs : FileSystem h w) (p : String) (bgr : Img8 h w),
        fs p = some bgr → ∀ (w1 w2 w3 w4 w5 : ℝ),
        compute_aesthetic_charge fs p 4 [w1, w2, w3, w4, w5]
          = .ok (qField bgr 4 w1 w2 w3 w4 w5, bgr2rgb bgr))
    ∧ (∀ (h w : ℕ) (fs : FileSystem h w) (p : String) (bgr : Img8 h w),
        fs p = some bgr → ∀ (k : ℕ), k ≠ 0 → ∀ (ws : List ℝ), ws.length ≠ 5 →
        compute_aesthetic_charge fs p k ws = .error PyError.valueError) := by
  constructor
  · intro h w fs p bgr hfs w1 w2 w3 w4 w5
    unfold compute_aesthetic_charge
    rw [hfs]
    norm_num
  · intro h w fs p bgr hfs k hk ws hlen
    have hstep : compute_aesthetic_charge fs p k ws
        = if k = 0 then Except.error PyError.cvError
          else match ws with
            | [w1, w2, w3, w4, w5] =>
                Except.ok (qField bgr k w1 w2 w3 w4 w5, bgr2rgb bgr)
            | _ => Except.error PyError.valueError := by
      unfold compute_aesthetic_charge
      rw [hfs]
    rw [hstep, if_neg hk]
    rcases ws with _ | ⟨a, _ | ⟨b, _ | ⟨c, _ | ⟨d, _ | ⟨e, _ | ⟨f, t⟩⟩⟩⟩⟩⟩
    all_goals first
      | rfl
      | (exfalso; exact hlen (by simp))

/-- Witness for C2 amended: a concrete succeeding kernel_size = 4 call and a
concrete wrong-length-weights call that raises the unpacking ValueError. -/
theorem C2_amended_witness :
    compute_aesthetic_charge (fun _ => some imgFlat12) path0 4 [2, 2, 2, 2, 2]
        = .ok (qField imgFlat12 4 2 2 2 2 2, bgr2rgb imgFlat12)
    ∧ compute_aesthetic_charge (fun _ => some imgFlat12) path0 5 [1, 2]
        = .error PyError.valueError :=
  ⟨C2_amended.1 1 2 (fun _ => some imgFlat12) path0 imgFlat12 rfl 2 2 2 2 2,
   C2_amended.2 1 2 (fun _ => some imgFlat12) path0 imgFlat12 rfl 5 (by norm_num)
     [1, 2] (by simp)⟩

/-- Claim C6 amended: the computation is deterministic given the decoded
file content — two calls whose filesystems decode to the same image at the
given paths produce identical results (same field, same RGB image). -/
theorem C6_determinism_amended {h w : ℕ} (fs1 fs2 : FileSystem h w)
    (p1 p2 : String) (hfs : fs1 p1 = fs2 p2) (k : ℕ) (ws : List ℝ) :
    compute_aesthetic_charge fs1 p1 k ws = compute_aesthetic_charge fs2 p2 k ws := by
  unfold compute_aesthetic_charge
  rw [hfs]

/-- Witness for C6 amended at a concrete repeated call. -/
theorem C6_determinism_amended_witness :
    ((fun _ => some imgBW : FileSystem 1 2) path0
        = (fun _ => some imgBW : FileSystem 1 2) path0)
    ∧ compute_aesthetic_charge (fun _ => some imgBW) path0 5 [1, 1, 1, 1 / 2, 3 / 10]
        = compute_aesthetic_charge (fun _ => some imgBW) path0 5 [1, 1, 1, 1 / 2, 3 / 10] :=
  ⟨rfl, C6_determinism_amended (fun _ => some imgBW) (fun _ => some imgBW) path0 path0
    rfl 5 [1, 1, 1, 1 / 2, 3 / 10]⟩

/-- Claim C7 amended: when the image cannot be decoded (cv2.imread returns
None) the computation aborts with the OpenCV error raised by cv2.cvtColor
and no field is produced. -/
theorem C7_failure_amended {h w : ℕ} (fs : FileSystem h w) (p : String)
    (hfs : fs p = none) (k : ℕ) (ws : List ℝ) :
    compute_aesthetic_charge fs p k ws = .error PyError.cvError := by
  unfold compute_aesthetic_charge
  rw [hfs]

/-- Witness for C7 amended at a concrete unreadable path. -/
theorem C7_failure_amended_witness :
    ((fun _ => (none : Option (Img8 1 2))) path0 = none)
    ∧ compute_aesthetic_charge (fun _ => (none : Option (Img8 1 2))) path0 5
        [1, 1, 1, 1 / 2, 3 / 10] = .error PyError.cvError :=
  ⟨rfl, C7_failure_amended (fun _ => none) path0 rfl 5 [1, 1, 1, 1 / 2, 3 / 10]⟩

/-- Claim C7 counterexample: at a path whose image cannot be decoded the call
fails with the generic OpenCV library error, which is not the spec's
InvalidInput error naming the offending input. -/
theorem C7_error_kind_counterexample :
    compute_aesthetic_charge (fun _ => (none : Option (Img8 1 2))) path0 5
        [1, 1, 1, 1 / 2, 3 / 10] = .error PyError.cvError
    ∧ PyError.cvError ≠ PyError.invalidInput :=
  ⟨rfl, by decide⟩

/-- Claim C6 counterexample: two calls with identical path and identical
parameters but different disk contents return different results, so the
output depends on what is read from disk — the function takes a file path
and performs the image load itself rather than receiving a decoded image. -/
theorem C6_disk_dependence_counterexample :
    compute_aesthetic_charge (fun _ => some imgBW) path0 5 [0, 0, 0, 0, 1]
      ≠ compute_aesthetic_charge (fun _ => some imgFlat12) path0 5 [0, 0, 0, 0, 1] := by
  intro heq
  have h1 : compute_aesthetic_charge (fun _ => some imgBW) path0 5 [0, 0, 0, 0, 1]
      = .ok (qField imgBW 5 0 0 0 0 1, bgr2rgb imgBW) := rfl
  have h2 : compute_aesthetic_charge (fun _ => some imgFlat12) path0 5 [0, 0, 0, 0, 1]
      = .ok (qField imgFlat12 5 0 0 0 0 1, bgr2rgb imgFlat12) := rfl
  rw [h1, h2] at heq
  have hq : qField imgBW 5 0 0 0 0 1 = qField imgFlat12 5 0 0 0 0 1 :=
    congrArg Prod.fst (Except.ok.inj heq)
  have hpt := congrFun (congrFun hq 0) 0
  rw [qField_entropy_iso, qField_entropy_iso, one_mul, one_mul, entropyVal_bw] at hpt
  have hflat : entropyVal (grayImage imgFlat12) = 0 := by
    rw [show grayImage imgFlat12 = (fun (_ : Fin 1) (_ : Fin 2) => 0) from grayImage_const 0]
    exact entropyVal_const (by norm_num) (by norm_num) (by norm_num)
  rw [hflat] at hpt
  norm_num at hpt

/-- Claim C3: for every image the returned field is indexed by the same
h x w plane as the input image (by construction of the embedding's types),
and with the five weights ≥ 0 every value of q is ≥ 0: the four
contrast/curvature maps are absolute values, and the entropy scalar is ≥ 0
for every image (each float32 histogram term -p*log2(rnd32(p + 1e-9)) is
non-negative because rnd32(p + 1e-9) ≤ 1 whenever p ≤ 1). -/
theorem C3_field_nonneg {h w : ℕ} (bgr : Img8 h w) (k : ℕ)
    (w1 w2 w3 w4 w5 : ℝ) (h1 : 0 ≤ w1) (h2 : 0 ≤ w2) (h3 : 0 ≤ w3)
    (h4 : 0 ≤ w4) (h5 : 0 ≤ w5) (y : Fin h) (x : Fin w) :
    0 ≤ qField bgr k w1 w2 w3 w4 w5 y x := by
  simp only [qField]
  exact add_nonneg (add_nonneg (add_nonneg (add_nonneg
    (mul_nonneg h1 (abs_nonneg _)) (mul_nonneg h2 (abs_nonneg _)))
    (mul_nonneg h3 (abs_nonneg _))) (mul_nonneg h4 (abs_nonneg _)))
    (mul_nonneg h5 (entropyVal_nonneg _))

/-- Witness for C3 at the black/white image with the default weights. -/
theorem C3_field_nonneg_witness :
    (0 : ℝ) ≤ 1 ∧ 0 ≤ qField imgBW 5 1 1 1 (1 / 2) (3 / 10) 0 0 :=
  ⟨by norm_num,
    C3_field_nonneg imgBW 5 1 1 1 (1 / 2) (3 / 10) (by norm_num) (by norm_num)
      (by norm_num) (by norm_num) (by norm_num) 0 0⟩

/-- Claim C4: for a perfectly flat image every local-mean difference map is
zero, the Laplacian map is zero, and the entropy scalar is zero — the single
occupied histogram bin has probability 1, and in float32 the floor is
absorbed (rnd32(1 + 1e-9) = 1, log2(1) = 0) — so q is the all-zero field
regardless of the weights. -/
theorem C4_flat_zero {h w : ℕ} {v : ℕ} (hv : v < 256) {k : ℕ} (hk : k ≠ 0)
    (w1 w2 w3 w4 w5 : ℝ) (y : Fin h) (x : Fin w) :
    Lchan (bgr2rgb (fun (_ : Fin h) (_ : Fin w) => (v, v, v))) y x
        - boxFilter (Lchan (bgr2rgb (fun (_ : Fin h) (_ : Fin w) => (v, v, v)))) k y x = 0
    ∧ achan (bgr2rgb (fun (_ : Fin h) (_ : Fin w) => (v, v, v))) y x
        - boxFilter (achan (bgr2rgb (fun (_ : Fin h) (_ : Fin w) => (v, v, v)))) k y x = 0
    ∧ bchan (bgr2rgb (fun (_ : Fin h) (_ : Fin w) => (v, v, v))) y x
        - boxFilter (bchan (bgr2rgb (fun (_ : Fin h) (_ : Fin w) => (v, v, v)))) k y x = 0
    ∧ laplacian (Lchan (bgr2rgb (fun (_ : Fin h) (_ : Fin w) => (v, v, v)))) y x = 0
    ∧ entropyVal (grayImage (fun (_ : Fin h) (_ : Fin w) => (v, v, v))) = 0
    ∧ qField (fun (_ : Fin h) (_ : Fin w) => (v, v, v)) k w1 w2 w3 w4 w5 y x = 0 := by
  have hL : Lchan (bgr2rgb (fun (_ : Fin h) (_ : Fin w) => (v, v, v)))
      = fun _ _ => (rgb2labPixel (v, v, v)).1 := rfl
  have hA : achan (bgr2rgb (fun (_ : Fin h) (_ : Fin w) => (v, v, v)))
      = fun _ _ => (rgb2labPixel (v, v, v)).2.1 := rfl
  have hB : bchan (bgr2rgb (fun (_ : Fin h) (_ : Fin w) => (v, v, v)))
      = fun _ _ => (rgb2labPixel (v, v, v)).2.2 := rfl
  refine ⟨?_, ?_, ?_, ?_, ?_, ?_⟩
  · rw [hL, boxFilter_const _ hk, sub_self]
  · rw [hA, boxFilter_const _ hk, sub_self]
  · rw [hB, boxFilter_const _ hk, sub_self]
  · rw [hL, laplacian_const]
  · rw [grayImage_const]
    exact entropyVal_const y.pos x.pos hv
  · simp only [qField]
    rw [hL, hA, hB, boxFilter_const _ hk, boxFilter_const _ hk, boxFilter_const _ hk,
      laplacian_const, grayImage_const, entropyVal_const y.pos x.pos hv]
    simp only [sub_self, abs_zero, mul_zero, zero_add, add_zero]

/-- Witness for C4 at the spec's 4 x 4 flat gray scenario with the default
weights. -/
theorem C4_flat_zero_witness :
    (128 : ℕ) < 256 ∧ (5 : ℕ) ≠ 0
    ∧ qField (fun (_ : Fin 4) (_ : Fin 4) => (128, 128, 128)) 5 1 1 1 (1 / 2) (3 / 10) 0 0
        = 0 :=
  ⟨by norm_num, by norm_num,
    (C4_flat_zero (by norm_num) (by norm_num) 1 1 1 (1 / 2) (3 / 10)
      (0 : Fin 4) (0 : Fin 4)).2.2.2.2.2⟩

/-- Claim C5: the entropy contribution to q is identical at every pixel for
a fixed image (with the other four weights zero, q is the constant field
w5 times the global scalar), and the scalar — the base-2 Shannon entropy of
the normalized 256-bin histogram with the 1e-9 floor inside the float32
logarithm — equals 0 exactly when the image is perfectly uniform: it is 0
for every constant image, and strictly positive as soon as two different
histogram bins are occupied. -/
theorem C5_entropy_zero_iff_uniform :
    (∀ (h w : ℕ) (bgr : Img8 h w) (k : ℕ) (w5 : ℝ) (y : Fin h) (x : Fin w),
        qField bgr k 0 0 0 0 w5 y x = w5 * entropyVal (grayImage bgr))
    ∧ (∀ (h w : ℕ), 0 < h → 0 < w → ∀ (g : ℕ), g < 256 →
        entropyVal (fun (_ : Fin h) (_ : Fin w) => g) = 0)
    ∧ (∀ (h w : ℕ) (g : Fin h → Fin w → ℕ) (v1 v2 : ℕ), v1 < 256 → v2 < 256 →
        v1 ≠ v2 → hist g v1 ≠ 0 → hist g v2 ≠ 0 → 0 < entropyVal g) :=
  ⟨fun _ _ bgr k w5 y x => qField_entropy_iso bgr k w5 y x,
   fun _ _ hh hw _ hg => entropyVal_const hh hw hg,
   fun _ _ g _ _ hv1 hv2 hne h1 h2 => entropyVal_pos_of_two_bins g hv1 hv2 hne h1 h2⟩

/-- Witness for C5: the flat gray image has entropy 0 and the black/white
image (bins 0 and 255 occupied) has strictly positive entropy. -/
theorem C5_entropy_zero_iff_uniform_witness :
    (0 : ℕ) < 4 ∧ (128 : ℕ) < 256
    ∧ hist (grayImage imgBW) 0 ≠ 0 ∧ hist (grayImage imgBW) 255 ≠ 0
    ∧ qField imgFlat4 5 0 0 0 0 1 0 0 = 1 * entropyVal (grayImage imgFlat4)
    ∧ entropyVal (fun (_ : Fin 4) (_ : Fin 4) => 128) = 0
    ∧ 0 < entropyVal (grayImage imgBW) :=
  ⟨by norm_num, by norm_num, by decide, by decide,
    C5_entropy_zero_iff_uniform.1 4 4 imgFlat4 5 1 0 0,
    C5_entropy_zero_iff_uniform.2.1 4 4 (by norm_num) (by norm_num) 128 (by norm_num),
    C5_entropy_zero_iff_uniform.2.2 1 2 (grayImage imgBW) 0 255 (by norm_num)
      (by norm_num) (by norm_num) (by decide) (by decide)⟩

/-- Claim C8: increasing any one of the five weights while holding the other
four weights and the image fixed can only increase q at every pixel — the
four contrast/curvature maps are absolute values and the entropy scalar is
≥ 0 for every image. -/
theorem C8_weight_monotone {h w : ℕ} (bgr : Img8 h w) (k : ℕ)
    (w1 w2 w3 w4 w5 d : ℝ) (hd : 0 ≤ d) (y : Fin h) (x : Fin w) :
    (qField bgr k w1 w2 w3 w4 w5 y x ≤ qField bgr k (w1 + d) w2 w3 w4 w5 y x)
    ∧ (qField bgr k w1 w2 w3 w4 w5 y x ≤ qField bgr k w1 (w2 + d) w3 w4 w5 y x)
    ∧ (qField bgr k w1 w2 w3 w4 w5 y x ≤ qField bgr k w1 w2 (w3 + d) w4 w5 y x)
    ∧ (qField bgr k w1 w2 w3 w4 w5 y x ≤ qField bgr k w1 w2 w3 (w4 + d) w5 y x)
    ∧ (qField bgr k w1 w2 w3 w4 w5 y x ≤ qField bgr k w1 w2 w3 w4 (w5 + d) y x) := by
  simp only [qField]
  have e1 : 0 ≤ d * |Lchan (bgr2rgb bgr) y x - boxFilter (Lchan (bgr2rgb bgr)) k y x| :=
    mul_nonneg hd (abs_nonneg _)
  have e2 : 0 ≤ d * |achan (bgr2rgb bgr) y x - boxFilter (achan (bgr2rgb bgr)) k y x| :=
    mul_nonneg hd (abs_nonneg _)
  have e3 : 0 ≤ d * |bchan (bgr2rgb bgr) y x - boxFilter (bchan (bgr2rgb bgr)) k y x| :=
    mul_nonneg hd (abs_nonneg _)
  have e4 : 0 ≤ d * |laplacian (Lchan (bgr2rgb bgr)) y x| :=
    mul_nonneg hd (abs_nonneg _)
  have e5 : 0 ≤ d * entropyVal (grayImage bgr) :=
    mul_nonneg hd (entropyVal_nonneg _)
  exact ⟨by nlinarith, by nlinarith, by nlinarith, by nlinarith, by nlinarith⟩

/-- Witness for C8 at the black/white image, raising w5 by 1. -/
theorem C8_weight_monotone_witness :
    (0 : ℝ) ≤ 1
    ∧ qField imgBW 5 1 1 1 (1 / 2) (3 / 10) 0 0
        ≤ qField imgBW 5 1 1 1 (1 / 2) (3 / 10 + 1) 0 0 :=
  ⟨by norm_num,
    (C8_weight_monotone imgBW 5 1 1 1 (1 / 2) (3 / 10) 1 (by norm_num) 0 0).2.2.2.2⟩

/-- Claim C9: the three per-channel box filters and the Laplacian share the
same border handling — the shared index extension realizes OpenCV's default
BORDER_REFLECT_101 pattern gfedcb|abcdefgh|gfedcba — and consequently on a
spatially constant channel the local mean equals the channel value and the
Laplacian is zero at every pixel, border pixels included. -/
theorem C9_border_consistency :
    (reflect101 8 (-1) = 1 ∧ reflect101 8 (-2) = 2 ∧ reflect101 8 8 = 6
      ∧ reflect101 8 9 = 5 ∧ reflect101 1 7 = 0)
    ∧ (∀ (h w : ℕ) (c : ℝ) (k : ℕ), k ≠ 0 → ∀ (y : Fin h) (x : Fin w),
        boxFilter (fun _ _ => c) k y x = c)
    ∧ (∀ (h w : ℕ) (c : ℝ) (y : Fin h) (x : Fin w),
        laplacian (fun _ _ => c) y x = 0) :=
  ⟨by decide, fun _ _ c k hk y x => boxFilter_const c hk y x,
   fun _ _ c y x => laplacian_const c y x⟩

/-- Witness for C9 at a concrete constant channel, kernel size 5. -/
theorem C9_border_consistency_witness :
    (5 : ℕ) ≠ 0
    ∧ boxFilter (fun (_ : Fin 4) (_ : Fin 4) => (7 : ℝ)) 5 0 0 = 7
    ∧ laplacian (fun (_ : Fin 4) (_ : Fin 4) => (7 : ℝ)) 0 0 = 0 :=
  ⟨by norm_num, C9_border_consistency.2.1 4 4 7 5 (by norm_num) 0 0,
    C9_border_consistency.2.2 4 4 7 0 0⟩

/-- Claim C10: the curvature map is the pointwise absolute value of the
4-neighbour discrete Laplacian stencil (3 x 3 kernel 0 1 0 / 1 -4 1 / 0 1 0)
applied to the L channel only: the laplacian equals that stencil at every
pixel (with reflect-101 sampling at the borders), and with weights
(0, 0, 0, 1, 0) the field is exactly |Laplacian of L|. -/
theorem C10_laplacian_stencil :
    (∀ (h w : ℕ) (ch : Channel h w) (y : Fin h) (x : Fin w),
        laplacian ch y x =
          sample ch y.pos x.pos ((y : ℤ) - 1) ((x : ℤ)) +
          sample ch y.pos x.pos ((y : ℤ)) ((x : ℤ) - 1) +
          sample ch y.pos x.pos ((y : ℤ)) ((x : ℤ) + 1) +
          sample ch y.pos x.pos ((y : ℤ) + 1) ((x : ℤ)) -
          4 * sample ch y.pos x.pos ((y : ℤ)) ((x : ℤ)))
    ∧ (∀ (h w : ℕ) (bgr : Img8 h w) (k : ℕ) (y : Fin h) (x : Fin w),
        qField bgr k 0 0 0 1 0 y x = |laplacian (Lchan (bgr2rgb bgr)) y x|) :=
  ⟨fun _ _ ch y x => laplacian_stencil_aux ch y x,
   fun _ _ bgr k y x => by simp only [qField]; ring⟩
